import Mathlib

/-!
Shallow embedding of the Firecash backend's access-control kernel and
recurring-obligation scheduler, translated from the Rust/SQL sources
(`src/backend/src/routes/account_groups.rs`,
`src/backend/src/routes/recurring_transactions.rs`,
`src/backend/src/bin/worker.rs`), together with theorems settling the
frozen specification claims.

Modelling conventions:
- `Uuid` is modelled as `Nat`; `gen_random_uuid()` becomes an explicit
  fresh-id parameter or counter.
- SQL `timestamptz` values are modelled as `Int` (seconds);
  `make_interval(days => d)` adds `d * 86400`.
- `f64` amounts are only ever copied, never computed with, so they are
  modelled as `Int` scalars.
- Each SQL table is a list of rows inside a `Db` record; statements are
  pure functions `Db → ...`; a fallible handler returns
  `Except ApiError ...`, where returning `.error` models the handler
  aborting with no state change (every handler either runs a single
  statement or rolls back its transaction on the error paths modelled).
-/

namespace Firecash

abbrev Uuid := Nat

abbrev Timestamp := Int

/-- Seconds in one day: `make_interval(days => d)` adds `d * daySecs`. -/
def daySecs : Int := 86400

/-- Row of `accounts(id, user_id, name, currency_code)`; `userId` is the owner. -/
structure Account where
  id : Uuid
  userId : Uuid
  name : String
  currencyCode : String
  deriving DecidableEq, Repr

/-- Row of `account_groups(id, user_id, name)`; `userId` is the creator. -/
structure AccountGroup where
  id : Uuid
  userId : Uuid
  name : String
  deriving DecidableEq, Repr

/-- Row of `account_group_users(group_id, user_id, role)`. -/
structure AccountGroupUser where
  groupId : Uuid
  userId : Uuid
  role : String
  deriving DecidableEq, Repr

/-- Row of `account_group_members(group_id, account_id)`. -/
structure AccountGroupMember where
  groupId : Uuid
  accountId : Uuid
  deriving DecidableEq, Repr

/-- Row of `recurring_transactions(id, account_id, amount, currency_code,
transaction_type, description, interval_days, next_occurs_at, is_enabled)`. -/
structure RecurringTransaction where
  id : Uuid
  accountId : Uuid
  amount : Int
  currencyCode : String
  transactionType : String
  description : Option String
  intervalDays : Int
  nextOccursAt : Timestamp
  isEnabled : Bool
  deriving DecidableEq, Repr

/-- Row of `transactions(id, account_id, amount, currency_code,
transaction_type, description, occurred_at)`. -/
structure Transaction where
  id : Uuid
  accountId : Uuid
  amount : Int
  currencyCode : String
  transactionType : String
  description : Option String
  occurredAt : Timestamp
  deriving DecidableEq, Repr

/-- The database state touched by the claims. -/
structure Db where
  accounts : List Account
  accountGroups : List AccountGroup
  accountGroupUsers : List AccountGroupUser
  accountGroupMembers : List AccountGroupMember
  recurringTransactions : List RecurringTransaction
  transactions : List Transaction
  deriving DecidableEq, Repr

/-- HTTP error results actually produced by the embedded handlers
(`StatusCode::NOT_FOUND`, `StatusCode::FORBIDDEN`, `StatusCode::BAD_REQUEST`).
`conflict` (HTTP 409) is in the spec's taxonomy and is included so that the
claims mentioning it can be stated, but no embedded handler produces it. -/
inductive ApiError where
  | notFound (msg : String)
  | forbidden (msg : String)
  | badRequest (msg : String)
  | conflict (msg : String)
  deriving DecidableEq, Repr

instance {ε α : Type} [DecidableEq ε] [DecidableEq α] :
    DecidableEq (Except ε α) := fun a b =>
  match a, b with
  | .ok x, .ok y =>
      if h : x = y then isTrue (by rw [h]) else isFalse (by simp [h])
  | .error x, .error y =>
      if h : x = y then isTrue (by rw [h]) else isFalse (by simp [h])
  | .ok _, .error _ => isFalse (by simp)
  | .error _, .ok _ => isFalse (by simp)

/-! ## Access-control kernel (`routes/recurring_transactions.rs`,
`routes/account_groups.rs`) -/

/-- The aggregate
`MAX(CASE WHEN agu.role IN ('edit','admin') THEN 1 ELSE 0 END)` over the
left-joined `account_group_members × account_group_users` rows of
`ensure_account_edit_access`: true iff some group exposing the account gives
`userId` role `edit` or `admin`. -/
def canEditViaGroups (db : Db) (userId accountId : Uuid) : Bool :=
  db.accountGroupMembers.any fun agm =>
    agm.accountId == accountId &&
      db.accountGroupUsers.any fun agu =>
        agu.groupId == agm.groupId && agu.userId == userId &&
          (agu.role == "edit" || agu.role == "admin")

/-- `ensure_account_edit_access` (recurring_transactions.rs:246-284):
absent account → 404; otherwise 403 unless the caller owns the account or
holds an edit/admin group role on it. -/
def ensure_account_edit_access (db : Db) (userId accountId : Uuid) :
    Except ApiError Unit :=
  match db.accounts.find? (fun a => a.id == accountId) with
  | none => .error (.notFound "Account not found")
  | some a =>
      if a.userId != userId && !canEditViaGroups db userId accountId then
        .error (.forbidden "Forbidden")
      else
        .ok ()

/-- The single left-joined `role` column of `ensure_group_member` /
`ensure_group_admin`: the role `userId` holds in `groupId`, if any. -/
def groupRole (db : Db) (groupId userId : Uuid) : Option String :=
  (db.accountGroupUsers.find? fun agu =>
      agu.groupId == groupId && agu.userId == userId).map (·.role)

/-- `ensure_group_admin` (account_groups.rs:539-572): absent group → 404;
role other than `admin` (or no role) → 403. -/
def ensure_group_admin (db : Db) (groupId userId : Uuid) :
    Except ApiError Unit :=
  match db.accountGroups.find? (fun g => g.id == groupId) with
  | none => .error (.notFound "Account group not found")
  | some _ =>
      if groupRole db groupId userId == some "admin" then
        .ok ()
      else
        .error (.forbidden "Forbidden")

/-- `ensure_group_member` (account_groups.rs:504-537): absent group → 404;
no role at all → 403. -/
def ensure_group_member (db : Db) (groupId userId : Uuid) :
    Except ApiError Unit :=
  match db.accountGroups.find? (fun g => g.id == groupId) with
  | none => .error (.notFound "Account group not found")
  | some _ =>
      if (groupRole db groupId userId).isNone then
        .error (.forbidden "Forbidden")
      else
        .ok ()

/-- Rust `str::trim`: drop whitespace from both ends (modelled structurally on
the character list so the kernel can evaluate it). -/
def trimStr (s : String) : String :=
  ⟨((s.data.dropWhile (·.isWhitespace)).reverse.dropWhile (·.isWhitespace)).reverse⟩

/-- Rust `str::to_lowercase`, restricted to the per-character lowering relevant
to the ASCII role names compared against. -/
def toLowerStr (s : String) : String :=
  ⟨s.data.map Char.toLower⟩

/-- `normalize_role` (account_groups.rs:574-580): trim, lowercase, and accept
exactly `view`, `edit`, `admin`. -/
def normalize_role (role : String) : Except ApiError String :=
  let normalized := toLowerStr (trimStr role)
  if normalized == "view" || normalized == "edit" || normalized == "admin" then
    .ok normalized
  else
    .error (.badRequest "Invalid role")

/-! ## Group member mutation handlers (`routes/account_groups.rs`) -/

/-- `update_account_group_user` (account_groups.rs:409-441): admin check,
role normalization, then an unconditional
`UPDATE account_group_users SET role = $1 WHERE group_id = $2 AND user_id = $3`.
There is no last-admin guard on this path. -/
def update_account_group_user (db : Db) (actingUser groupId targetUserId : Uuid)
    (roleInput : String) : Except ApiError Db := do
  ensure_group_admin db groupId actingUser
  let role ← normalize_role roleInput
  .ok { db with
          accountGroupUsers := db.accountGroupUsers.map fun agu =>
            if agu.groupId == groupId && agu.userId == targetUserId then
              { agu with role := role }
            else agu }

/-- `SELECT COUNT(*) FROM account_group_users WHERE group_id = $1 AND role = 'admin'`
(account_groups.rs:450-460). -/
def adminCount (db : Db) (groupId : Uuid) : Nat :=
  (db.accountGroupUsers.filter fun agu =>
      agu.groupId == groupId && agu.role == "admin").length

/-- `delete_account_group_user` (account_groups.rs:443-502): admin check; if the
group has at most one admin and the target currently holds role `admin`, fail
with 400 "At least one admin required"; otherwise delete the target's
membership row. -/
def delete_account_group_user (db : Db) (actingUser groupId targetUserId : Uuid) :
    Except ApiError Db := do
  ensure_group_admin db groupId actingUser
  if adminCount db groupId ≤ 1 &&
      groupRole db groupId targetUserId == some "admin" then
    .error (.badRequest "At least one admin required")
  else
    .ok { db with
            accountGroupUsers := db.accountGroupUsers.filter fun agu =>
              !(agu.groupId == groupId && agu.userId == targetUserId) }

/-! ## Group update/delete handlers (`routes/account_groups.rs`) -/

/-- `SELECT COUNT(*) FROM accounts WHERE user_id = $1 AND id = ANY($2)`
(account_groups.rs:192-203). -/
def ownedCount (db : Db) (userId : Uuid) (accountIds : List Uuid) : Nat :=
  (db.accounts.filter fun a =>
      a.userId == userId && accountIds.contains a.id).length

/-- Replace the `account_group_members` rows of `groupId` by the given account
ids: the `DELETE FROM account_group_members WHERE group_id = $1` followed by
one `INSERT ... ON CONFLICT DO NOTHING` per id (account_groups.rs:210-235). -/
def resetGroupMembers (rows : List AccountGroupMember) (groupId : Uuid)
    (accountIds : List Uuid) : List AccountGroupMember :=
  let remaining := rows.filter fun agm => !(agm.groupId == groupId)
  accountIds.foldl
    (fun acc accountId =>
      if acc.any fun agm => agm.groupId == groupId && agm.accountId == accountId
      then acc
      else acc ++ [⟨groupId, accountId⟩])
    remaining

/-- `update_account_group` (account_groups.rs:157-248): admin check, then inside
one transaction an `UPDATE account_groups SET name = COALESCE($1, name)
WHERE id = $2 AND user_id = $3 RETURNING ...` — `user_id = $3` restricts the
update to groups created by the acting user, so a non-creator gets 404 — then
optionally an ownership check on the new member account list and a member
reset. An error return rolls the transaction back (state unchanged). -/
def update_account_group (db : Db) (userId groupId : Uuid)
    (nameInput : Option String) (accountIdsInput : Option (List Uuid)) :
    Except ApiError (Db × AccountGroup) := do
  ensure_group_admin db groupId userId
  match db.accountGroups.find? (fun g => g.id == groupId && g.userId == userId) with
  | none => .error (.notFound "Account group not found")
  | some g =>
      let g' : AccountGroup := { g with name := nameInput.getD g.name }
      let db1 := { db with
                     accountGroups := db.accountGroups.map fun h =>
                       if h.id == groupId && h.userId == userId then
                         { h with name := nameInput.getD h.name }
                       else h }
      match accountIdsInput with
      | none => .ok (db1, g')
      | some accountIds =>
          if accountIds ≠ [] ∧ ownedCount db userId accountIds ≠ accountIds.length then
            .error (.forbidden "Forbidden")
          else
            .ok ({ db1 with
                     accountGroupMembers :=
                       resetGroupMembers db1.accountGroupMembers groupId accountIds },
                  g')

/-- `delete_account_group` (account_groups.rs:250-313): admin check, then inside
one transaction `SELECT 1 FROM account_groups WHERE id = $1 AND user_id = $2` —
absent (in particular when the acting user is not the creator) → 404 with
nothing yet written — then delete the member rows and the group row. -/
def delete_account_group (db : Db) (userId groupId : Uuid) :
    Except ApiError Db := do
  ensure_group_admin db groupId userId
  if db.accountGroups.any fun g => g.id == groupId && g.userId == userId then
    .ok { db with
            accountGroupMembers :=
              db.accountGroupMembers.filter fun agm => !(agm.groupId == groupId)
            accountGroups :=
              db.accountGroups.filter fun g => !(g.id == groupId) }
  else
    .error (.notFound "Account group not found")

/-! ## Recurring obligation handlers (`routes/recurring_transactions.rs`) -/

/-- Payload of `UpdateRecurringTransactionRequest` (models.rs), as used by the
update handler. -/
structure UpdateRecurringTransactionRequest where
  accountId : Option Uuid
  amount : Option Int
  currencyCode : Option String
  transactionType : Option String
  description : Option (Option String)
  intervalDays : Option Int
  nextOccursAt : Option Timestamp
  isEnabled : Option Bool
  deriving DecidableEq, Repr

/-- The `SET ... = COALESCE($i, ...)` row update of
`update_recurring_transaction` (recurring_transactions.rs:126-140). -/
def applyRecurringUpdate (p : UpdateRecurringTransactionRequest)
    (rt : RecurringTransaction) : RecurringTransaction :=
  { rt with
      accountId := p.accountId.getD rt.accountId
      amount := p.amount.getD rt.amount
      currencyCode := p.currencyCode.getD rt.currencyCode
      transactionType := p.transactionType.getD rt.transactionType
      description := p.description.getD rt.description
      intervalDays := p.intervalDays.getD rt.intervalDays
      nextOccursAt := p.nextOccursAt.getD rt.nextOccursAt
      isEnabled := p.isEnabled.getD rt.isEnabled }

/-- `SELECT account_id FROM recurring_transactions WHERE id = $1`
(recurring_transactions.rs:104-118 and the identical preludes of skip/delete). -/
def findRecurring (db : Db) (recurringId : Uuid) : Option RecurringTransaction :=
  db.recurringTransactions.find? fun rt => rt.id == recurringId

/-- `update_recurring_transaction` (recurring_transactions.rs:98-156): look up
the row's account (404 if absent), require edit access on it — and on the new
account when the payload moves the row — then apply the `COALESCE` update.
In particular `next_occurs_at` is set to any caller-supplied value. -/
def update_recurring_transaction (db : Db) (userId recurringId : Uuid)
    (p : UpdateRecurringTransactionRequest) :
    Except ApiError (Db × RecurringTransaction) := do
  match findRecurring db recurringId with
  | none => .error (.notFound "Recurring transaction not found")
  | some rt0 =>
      ensure_account_edit_access db userId rt0.accountId
      match p.accountId with
      | some newAccountId => ensure_account_edit_access db userId newAccountId
      | none => pure ()
      .ok ({ db with
               recurringTransactions := db.recurringTransactions.map fun rt =>
                 if rt.id == recurringId then applyRecurringUpdate p rt else rt },
            applyRecurringUpdate p rt0)

/-- The row update of `skip_recurring_transaction`
(recurring_transactions.rs:181-195): advance `next_occurs_at` by the row's own
`interval_days`, provided the joined `accounts` row exists. -/
def advanceRecurring (rt : RecurringTransaction) : RecurringTransaction :=
  { rt with nextOccursAt := rt.nextOccursAt + rt.intervalDays * daySecs }

/-- `skip_recurring_transaction` (recurring_transactions.rs:158-202): look up
the row's account (404 if absent), require edit access, then
`UPDATE ... SET next_occurs_at = next_occurs_at + make_interval(days =>
interval_days) FROM accounts a WHERE rt.account_id = a.id AND rt.id = $1`;
a missing `accounts` join partner makes the update match nothing → 404. -/
def skip_recurring_transaction (db : Db) (userId recurringId : Uuid) :
    Except ApiError (Db × RecurringTransaction) := do
  match findRecurring db recurringId with
  | none => .error (.notFound "Recurring transaction not found")
  | some rt0 =>
      ensure_account_edit_access db userId rt0.accountId
      if db.accounts.any fun a => a.id == rt0.accountId then
        .ok ({ db with
                 recurringTransactions := db.recurringTransactions.map fun rt =>
                   if rt.id == recurringId &&
                       db.accounts.any (fun a => a.id == rt.accountId) then
                     advanceRecurring rt
                   else rt },
              advanceRecurring rt0)
      else
        .error (.notFound "Recurring transaction not found")

/-! ## Scheduler tick (`bin/worker.rs`, `refresh_recurring_transactions`) -/

/-- The `due` CTE: `SELECT ... FROM recurring_transactions WHERE
next_occurs_at <= NOW() FOR UPDATE SKIP LOCKED` (worker.rs:66-72). The
`WHERE` clause never consults `is_enabled`. -/
def dueRows (rows : List RecurringTransaction) (now : Timestamp) :
    List RecurringTransaction :=
  rows.filter fun rt => rt.nextOccursAt ≤ now

/-- The `inserted` CTE's row for one due obligation: a new transaction copying
account, amount, currency, kind and description, dated at the obligation's
current (pre-advance) `next_occurs_at` (worker.rs:73-80). -/
def fireTransaction (freshId : Uuid) (rt : RecurringTransaction) : Transaction :=
  { id := freshId
    accountId := rt.accountId
    amount := rt.amount
    currencyCode := rt.currencyCode
    transactionType := rt.transactionType
    description := rt.description
    occurredAt := rt.nextOccursAt }

/-- `refresh_recurring_transactions` (worker.rs:62-90): one SQL statement —
hence one atomic unit — that selects the due rows, inserts one transaction per
due row, and advances each due row's `next_occurs_at` by its own
`interval_days`. `freshIds` stands in for `gen_random_uuid()`, one id per
inserted row position. -/
def refresh_recurring_transactions (db : Db) (now : Timestamp)
    (freshIds : Nat → Uuid) : Db :=
  let due := dueRows db.recurringTransactions now
  { db with
      transactions := db.transactions ++
        (due.enum.map fun p => fireTransaction (freshIds p.1) p.2)
      recurringTransactions := db.recurringTransactions.map fun rt =>
        if (due.map fun d => d.id).contains rt.id then advanceRecurring rt
        else rt }

/-! ## Concurrent scheduler run model (C3)

`refresh_recurring_transactions` runs as one SQL statement per instance, but
its `FOR UPDATE SKIP LOCKED` claim and the commit that publishes the insert
and advance (releasing the row locks) are separated in time when several
worker processes share the store. The model below makes those two points
explicit: an instance first performs its claim — locking every due row not
already locked by a sibling, skipping (never waiting on) locked rows — and
later commits, atomically inserting one transaction per claimed row, advancing
each claimed row by its own interval, and releasing its locks. Rows locked by
one instance cannot be read, claimed or written by any other until released,
which is why the claim records the row ids and the commit re-reads the (by
then necessarily unchanged) rows. -/

/-- Progress of one scheduler instance through its single claim-then-commit
statement. -/
inductive Phase where
  | start
  | claimed (ids : List Uuid)
  | finished
  deriving DecidableEq, Repr

/-- Shared store plus per-instance state for N concurrently running scheduler
instances. `ctr` supplies fresh transaction ids (for `gen_random_uuid()`). -/
structure RunState where
  rows : List RecurringTransaction
  txns : List Transaction
  locked : List Uuid
  insts : List Phase
  ctr : Nat
  deriving DecidableEq, Repr

/-- The `due` CTE of instance `i`: select and lock every due row not locked by
a sibling (`FOR UPDATE SKIP LOCKED`) — locked rows are skipped, and the step
is always enabled for an instance in `start` phase (it never waits). -/
def claimStep (now : Timestamp) (s : RunState) (i : Nat) : Option RunState :=
  match s.insts.get? i with
  | some Phase.start =>
      let mine := s.rows.filter fun rt =>
        decide (rt.nextOccursAt ≤ now) && !(s.locked.contains rt.id)
      some { s with
               locked := s.locked ++ mine.map (fun rt => rt.id)
               insts := s.insts.set i (Phase.claimed (mine.map fun rt => rt.id)) }
  | _ => none

/-- Commit of instance `i`'s statement: in one atomic unit, insert one
transaction per claimed row dated at the row's pre-advance `next_occurs_at`,
advance each claimed row by its own `interval_days`, and release the row
locks. -/
def commitStep (s : RunState) (i : Nat) : Option RunState :=
  match s.insts.get? i with
  | some (Phase.claimed ids) =>
      let mine := s.rows.filter fun rt => ids.contains rt.id
      some { rows := s.rows.map fun rt =>
               if ids.contains rt.id then advanceRecurring rt else rt
             txns := s.txns ++
               mine.enum.map fun p => fireTransaction (s.ctr + p.1) p.2
             locked := s.locked.filter fun v => !(ids.contains v)
             insts := s.insts.set i Phase.finished
             ctr := s.ctr + mine.length }
  | _ => none

/-- One interleaved scheduling choice. -/
inductive Action where
  | claim (i : Nat)
  | commit (i : Nat)
  deriving DecidableEq, Repr

/-- Apply one action; `none` when the chosen instance is not in the matching
phase. -/
def applyAction (now : Timestamp) (s : RunState) : Action → Option RunState
  | .claim i => claimStep now s i
  | .commit i => commitStep s i

/-- Run an interleaving. `some` exactly when every action was enabled. -/
def runActions (now : Timestamp) : RunState → List Action → Option RunState
  | s, [] => some s
  | s, a :: rest =>
      match applyAction now s a with
      | some s' => runActions now s' rest
      | none => none

/-- A transaction's payload without its generated id: what "one transaction
per firing" is counted over. -/
def stripTx (t : Transaction) :
    Uuid × Int × String × String × Option String × Timestamp :=
  (t.accountId, t.amount, t.currencyCode, t.transactionType, t.description,
    t.occurredAt)

/-- The id-less transaction a firing of `rt` produces. -/
def fireStrip (rt : RecurringTransaction) :
    Uuid × Int × String × String × Option String × Timestamp :=
  stripTx (fireTransaction 0 rt)

/-- Ids of the rows due at `now`. -/
def dueIds (rows0 : List RecurringTransaction) (now : Timestamp) : List Uuid :=
  (dueRows rows0 now).map fun rt => rt.id

/-- The claim lists of the instances currently holding locks. -/
def claimLists (insts : List Phase) : List (List Uuid) :=
  insts.filterMap fun ph =>
    match ph with
    | Phase.claimed ids => some ids
    | _ => none

/-- Run invariant for the concurrent scheduler model, relative to the initial
tables `rows0`/`txns0` and the processed-id accumulator `procIds`. -/
structure InvAt (rows0 : List RecurringTransaction) (txns0 : List Transaction)
    (now : Timestamp) (procIds : List Uuid) (s : RunState) : Prop where
  hrows : s.rows = rows0.map fun rt =>
    if procIds.contains rt.id then advanceRecurring rt else rt
  hproc_due : ∀ v ∈ procIds, v ∈ dueIds rows0 now
  hproc_nodup : procIds.Nodup
  htxns : ∃ new, s.txns = txns0 ++ new ∧
    List.Perm (new.map stripTx)
      ((rows0.filter fun rt => procIds.contains rt.id).map fireStrip)
  hclaims_due : ∀ c ∈ claimLists s.insts, ∀ v ∈ c, v ∈ dueIds rows0 now
  hclaims_unproc : ∀ c ∈ claimLists s.insts, ∀ v ∈ c, v ∉ procIds
  hlocked : List.Perm s.locked (claimLists s.insts).flatten
  hlocked_nodup : s.locked.Nodup
  hfresh : (∃ ph ∈ s.insts, ph ≠ Phase.start) →
    ∀ v ∈ dueIds rows0 now, v ∈ procIds ∨ v ∈ s.locked

/-! ## Concrete databases and inputs used by counterexamples and witnesses -/

/-- Concrete database used to exercise the owner fast path: user 5 owns
account 1, and the adversarial group tables give user 5 only a `view` role
in a group exposing that account. -/
def c7Db : Db :=
  { accounts := [⟨1, 5, "main", "USD"⟩]
    accountGroups := [⟨1, 9, "g"⟩]
    accountGroupUsers := [⟨1, 9, "admin"⟩, ⟨1, 5, "view"⟩]
    accountGroupMembers := [⟨1, 1⟩]
    recurringTransactions := []
    transactions := [] }

/-- Concrete database for C8: group 1 exists with creator 5 (role `admin`);
user 7 holds only role `view`; user 7 also holds only `view` on account 1
through that group. -/
def c8Db : Db :=
  { accounts := [⟨1, 5, "main", "USD"⟩]
    accountGroups := [⟨1, 5, "g"⟩]
    accountGroupUsers := [⟨1, 5, "admin"⟩, ⟨1, 7, "view"⟩]
    accountGroupMembers := [⟨1, 1⟩]
    recurringTransactions := []
    transactions := [] }

/-- Concrete database for C1: group 1 has exactly one member, user 5, who is
its last (and only) Admin. -/
def c1Db : Db :=
  { accounts := []
    accountGroups := [⟨1, 5, "g"⟩]
    accountGroupUsers := [⟨1, 5, "admin"⟩]
    accountGroupMembers := []
    recurringTransactions := []
    transactions := [] }

/-- Concrete database for C10: group 1 was created by user 5; user 7 holds the
`admin` group role but is not the creator. -/
def c10Db : Db :=
  { accounts := []
    accountGroups := [⟨1, 5, "g"⟩]
    accountGroupUsers := [⟨1, 5, "admin"⟩, ⟨1, 7, "admin"⟩]
    accountGroupMembers := []
    recurringTransactions := []
    transactions := [] }

/-- Concrete database for C6/C4/C9 witnesses: user 5 owns account 1, which
carries recurring obligation 2 (amount 100, interval 7 days, next fire at
1000). -/
def c6Db : Db :=
  { accounts := [⟨1, 5, "main", "USD"⟩]
    accountGroups := []
    accountGroupUsers := []
    accountGroupMembers := []
    recurringTransactions := [⟨2, 1, 100, "USD", "expense", none, 7, 1000, true⟩]
    transactions := [] }

/-- The state after the C6 witness skip: obligation 2 advanced by 7 days. -/
def c6DbAfter : Db :=
  { c6Db with recurringTransactions :=
      [⟨2, 1, 100, "USD", "expense", none, 7, 1000 + 7 * daySecs, true⟩] }

/-- The row returned by the C6 witness skip. -/
def c6Out : RecurringTransaction :=
  ⟨2, 1, 100, "USD", "expense", none, 7, 1000 + 7 * daySecs, true⟩

/-- Concrete database for C9: same as `c6Db` but obligation 2 is disabled. -/
def c9Db : Db :=
  { c6Db with recurringTransactions :=
      [⟨2, 1, 100, "USD", "expense", none, 7, 1000, false⟩] }

/-- Payload used for the C4 counterexample: it only sets `next_occurs_at`,
to 0 — earlier than the row's current 1000. -/
def c4Payload : UpdateRecurringTransactionRequest :=
  { accountId := none, amount := none, currencyCode := none,
    transactionType := none, description := none, intervalDays := none,
    nextOccursAt := some 0, isEnabled := none }

/-- The state after the C4 counterexample update. -/
def c4DbAfter : Db :=
  { c6Db with recurringTransactions :=
      [⟨2, 1, 100, "USD", "expense", none, 7, 0, true⟩] }

/-- The row returned by the C4 counterexample update. -/
def c4RowAfter : RecurringTransaction :=
  ⟨2, 1, 100, "USD", "expense", none, 7, 0, true⟩

/-- Two due obligations for the C3 witness run. -/
def c3Rows : List RecurringTransaction :=
  [⟨2, 1, 100, "USD", "expense", none, 7, 1000, true⟩,
   ⟨3, 1, 50, "USD", "income", some "pay", 30, 500, true⟩]

/-- Initial run state for the C3 witness: two instances, both at `start`. -/
def c3Start : RunState :=
  { rows := c3Rows, txns := [], locked := [],
    insts := [Phase.start, Phase.start], ctr := 0 }

/-- Final state of the C3 witness interleaving
`[claim 0, claim 1, commit 0, commit 1]` at `now = 2000`: instance 0 claims
both due rows, instance 1's claim skips the locked rows and claims nothing,
and each obligation is fired exactly once. -/
def c3Final : RunState :=
  { rows := [⟨2, 1, 100, "USD", "expense", none, 7, 605800, true⟩,
             ⟨3, 1, 50, "USD", "income", some "pay", 30, 2592500, true⟩]
    txns := [⟨0, 1, 100, "USD", "expense", none, 1000⟩,
             ⟨1, 1, 50, "USD", "income", some "pay", 500⟩]
    locked := []
    insts := [Phase.finished, Phase.finished]
    ctr := 2 }

/-! ## Theorems about the claims -/

/-- Reduction of an `Except` bind whose first step succeeded. -/
theorem okBind {e a b : Type} (x : a) (f : a → Except e b) :
    (do let y ← (Except.ok x : Except e a); f y) = f x := rfl

/-- Reduction of an `Except` bind whose first step failed. -/
theorem errorBind {e a b : Type} (x : e) (f : a → Except e b) :
    (do let y ← (Except.error x : Except e a); f y) = Except.error x := rfl

/-- Reduction of an `Except` bind over `pure`. -/
theorem pureBind {e a b : Type} (x : a) (f : a → Except e b) :
    (do let y ← (pure x : Except e a); f y) = f x := rfl

/-- C7: for every database (hence every state of the group/role tables), the
owner of an account passes `ensure_account_edit_access` — the only
account-level edit/admin gate in the cited code — with `.ok`, never
`Forbidden`. -/
theorem C7_owner_always_passes_account_access (db : Db)
    (userId accountId : Uuid) (a : Account)
    (hfind : db.accounts.find? (fun x => x.id == accountId) = some a)
    (howner : a.userId = userId) :
    ensure_account_edit_access db userId accountId = .ok () := by
  unfold ensure_account_edit_access
  rw [hfind]
  simp [howner]

/-- Witness for C7 at the concrete database `c7Db`. -/
theorem C7_owner_always_passes_account_access_witness :
    ensure_account_edit_access c7Db 5 1 = .ok () :=
  C7_owner_always_passes_account_access c7Db 5 1 ⟨1, 5, "main", "USD"⟩ rfl rfl

/-- C8 counterexample: user 7 is unauthorized for group administration on the
existing group 1, yet `ensure_group_admin` reports `Forbidden`, not the
`NotFound` the claim requires. -/
theorem C8_counterexample :
    ensure_group_admin c8Db 1 7 = .error (.forbidden "Forbidden") ∧
      ensure_account_edit_access c8Db 7 1 = .error (.forbidden "Forbidden") := by
  constructor <;> rfl

/-- C8 amended: an absent entity yields `NotFound`, while an existing entity
with an insufficient role yields `Forbidden` — the two cases are
distinguishable to the caller, contrary to the claim. -/
theorem C8_amended (db : Db) (groupId accountId userId : Uuid) :
    (db.accountGroups.find? (fun g => g.id == groupId) = none →
      ensure_group_admin db groupId userId =
        .error (.notFound "Account group not found")) ∧
    (∀ g, db.accountGroups.find? (fun g => g.id == groupId) = some g →
      groupRole db groupId userId ≠ some "admin" →
      ensure_group_admin db groupId userId = .error (.forbidden "Forbidden")) ∧
    (db.accounts.find? (fun a => a.id == accountId) = none →
      ensure_account_edit_access db userId accountId =
        .error (.notFound "Account not found")) ∧
    (∀ a, db.accounts.find? (fun a => a.id == accountId) = some a →
      a.userId ≠ userId → canEditViaGroups db userId accountId = false →
      ensure_account_edit_access db userId accountId =
        .error (.forbidden "Forbidden")) := by
  refine ⟨fun hnone => ?_, fun g hfind hrole => ?_, fun hnone => ?_,
    fun a hfind hneq hcan => ?_⟩
  · unfold ensure_group_admin
    rw [hnone]
  · unfold ensure_group_admin
    rw [hfind]
    simp [hrole]
  · unfold ensure_account_edit_access
    rw [hnone]
  · unfold ensure_account_edit_access
    rw [hfind]
    simp [hneq, hcan, Ne.symm hneq]

/-- Witness for C8 amended at `c8Db`: the role-insufficient branches at
concrete inputs. -/
theorem C8_amended_witness :
    ensure_group_admin c8Db 1 7 = .error (.forbidden "Forbidden") :=
  (C8_amended c8Db 1 1 7).2.1 ⟨1, 5, "g"⟩ rfl (by decide)

/-- C1 counterexample: demoting the last remaining Admin of group 1 through
`update_account_group_user` succeeds and changes the member set (the lone
`admin` row becomes `view`), instead of failing with Conflict and leaving the
member set unchanged. -/
theorem C1_counterexample :
    update_account_group_user c1Db 5 1 5 "view" =
      .ok { c1Db with accountGroupUsers := [⟨1, 5, "view"⟩] } := by
  decide

/-- C1 amended: removing the last remaining Admin via
`delete_account_group_user` is rejected — but with `BadRequest`
("At least one admin required"), not Conflict — and, the handler aborting
before its `DELETE`, the member rows are untouched; demotion via
`update_account_group_user` performs no last-admin check at all, so it
succeeds even on the last Admin. -/
theorem C1_amended (db : Db) (actingUser groupId targetUserId : Uuid)
    (hAdminGate : ensure_group_admin db groupId actingUser = .ok ())
    (hCount : adminCount db groupId ≤ 1)
    (hTarget : groupRole db groupId targetUserId = some "admin") :
    delete_account_group_user db actingUser groupId targetUserId =
      .error (.badRequest "At least one admin required") ∧
    (update_account_group_user db actingUser groupId targetUserId
        "view").isOk = true := by
  constructor
  · unfold delete_account_group_user
    rw [hAdminGate]
    simp [hCount, hTarget]
    rfl
  · unfold update_account_group_user
    rw [hAdminGate]
    rfl

/-- Witness for C1 amended at `c1Db`: acting user 5 is the group's sole Admin
and the target. -/
theorem C1_amended_witness :
    delete_account_group_user c1Db 5 1 5 =
      .error (.badRequest "At least one admin required") ∧
    (update_account_group_user c1Db 5 1 5 "view").isOk = true :=
  C1_amended c1Db 5 1 5 rfl (by decide) rfl

/-- C10: group update and delete succeed only for the creator — any `.ok`
outcome implies the acting user is the `account_groups.user_id` creator — and
an admin-role holder who is not the creator passes `ensure_group_admin` but
then receives `NotFound` from both handlers, each of which aborts before
writing anything (the update's `WHERE user_id` clause matched no row; the
delete checked before deleting), so the group is unchanged. -/
theorem C10_group_mutation_requires_creator (db : Db) (userId groupId : Uuid)
    (nameInput : Option String) (accountIdsInput : Option (List Uuid)) :
    (∀ out, update_account_group db userId groupId nameInput accountIdsInput =
        .ok out → ∃ g ∈ db.accountGroups, g.id = groupId ∧ g.userId = userId) ∧
    (∀ db', delete_account_group db userId groupId = .ok db' →
      ∃ g ∈ db.accountGroups, g.id = groupId ∧ g.userId = userId) ∧
    (groupRole db groupId userId = some "admin" →
      (∃ g ∈ db.accountGroups, g.id = groupId) →
      (∀ g ∈ db.accountGroups, g.id = groupId → g.userId ≠ userId) →
      ensure_group_admin db groupId userId = .ok () ∧
      update_account_group db userId groupId nameInput accountIdsInput =
        .error (.notFound "Account group not found") ∧
      delete_account_group db userId groupId =
        .error (.notFound "Account group not found")) := by
  refine ⟨fun out hok => ?_, fun db' hok => ?_, fun hrole hex hall => ?_⟩
  · unfold update_account_group at hok
    cases hgate : ensure_group_admin db groupId userId with
    | error err => rw [hgate, errorBind] at hok; exact absurd hok (by simp)
    | ok u =>
        cases u
        rw [hgate, okBind] at hok
        cases hfind : db.accountGroups.find?
            (fun g => g.id == groupId && g.userId == userId) with
        | none => rw [hfind] at hok; exact absurd hok (by simp)
        | some g =>
            have hmem := List.mem_of_find?_eq_some hfind
            have hpred := List.find?_some hfind
            simp only [Bool.and_eq_true, beq_iff_eq] at hpred
            exact ⟨g, hmem, hpred.1, hpred.2⟩
  · unfold delete_account_group at hok
    cases hgate : ensure_group_admin db groupId userId with
    | error err => rw [hgate, errorBind] at hok; exact absurd hok (by simp)
    | ok u =>
        cases u
        rw [hgate, okBind] at hok
        by_cases hany : (db.accountGroups.any fun g =>
            g.id == groupId && g.userId == userId) = true
        · obtain ⟨g, hmem, hpred⟩ := List.any_eq_true.mp hany
          simp only [Bool.and_eq_true, beq_iff_eq] at hpred
          exact ⟨g, hmem, hpred.1, hpred.2⟩
        · rw [Bool.not_eq_true] at hany
          rw [hany] at hok
          exact absurd hok (by simp)
  · obtain ⟨g0, hg0, hid0⟩ := hex
    have hgate : ensure_group_admin db groupId userId = .ok () := by
      unfold ensure_group_admin
      cases hfind : db.accountGroups.find? (fun g => g.id == groupId) with
      | none =>
          rw [List.find?_eq_none] at hfind
          exact absurd (by simp [hid0]) (hfind g0 hg0)
      | some g1 => simp [hrole]
    have hnone : db.accountGroups.find?
        (fun g => g.id == groupId && g.userId == userId) = none := by
      rw [List.find?_eq_none]
      intro g hg
      simp only [Bool.and_eq_true, beq_iff_eq, not_and]
      intro h1 h2
      exact hall g hg h1 h2
    have hany : (db.accountGroups.any fun g =>
        g.id == groupId && g.userId == userId) = false := by
      rw [Bool.eq_false_iff]
      intro hcontra
      obtain ⟨g, hg, hpred⟩ := List.any_eq_true.mp hcontra
      simp only [Bool.and_eq_true, beq_iff_eq] at hpred
      exact hall g hg hpred.1 hpred.2
    refine ⟨hgate, ?_, ?_⟩
    · unfold update_account_group
      rw [hgate, okBind, hnone]
    · unfold delete_account_group
      rw [hgate, okBind, hany]
      rfl

/-- Witness for C10: in `c10Db`, admin-but-not-creator user 7 receives
`NotFound` from both group update and group delete. -/
theorem C10_group_mutation_requires_creator_witness :
    ensure_group_admin c10Db 1 7 = .ok () ∧
    update_account_group c10Db 7 1 (some "renamed") none =
      .error (.notFound "Account group not found") ∧
    delete_account_group c10Db 7 1 =
      .error (.notFound "Account group not found") :=
  (C10_group_mutation_requires_creator c10Db 7 1 (some "renamed") none).2.2
    (by decide) (by decide) (by decide)

/-- C6: a successful manual skip advances the obligation's `next_occurs_at` by
exactly `interval_days` days from its previous value, inserts nothing into
`transactions`, leaves every other field of the obligation unchanged, and
leaves every other table and every other obligation row unchanged. -/
theorem C6_skip_one_interval_no_insert (db db' : Db)
    (userId recurringId : Uuid) (rt0 out : RecurringTransaction)
    (hfind : findRecurring db recurringId = some rt0)
    (hok : skip_recurring_transaction db userId recurringId = .ok (db', out)) :
    db'.transactions = db.transactions ∧
    db'.accounts = db.accounts ∧
    db'.accountGroups = db.accountGroups ∧
    db'.accountGroupUsers = db.accountGroupUsers ∧
    db'.accountGroupMembers = db.accountGroupMembers ∧
    out.nextOccursAt = rt0.nextOccursAt + rt0.intervalDays * daySecs ∧
    out.accountId = rt0.accountId ∧
    out.amount = rt0.amount ∧
    out.currencyCode = rt0.currencyCode ∧
    out.transactionType = rt0.transactionType ∧
    out.description = rt0.description ∧
    out.intervalDays = rt0.intervalDays ∧
    out.isEnabled = rt0.isEnabled ∧
    db'.recurringTransactions = db.recurringTransactions.map (fun rt =>
      if rt.id == recurringId &&
          db.accounts.any (fun a => a.id == rt.accountId) then
        advanceRecurring rt
      else rt) ∧
    (∀ rt ∈ db.recurringTransactions, rt.id ≠ recurringId →
      rt ∈ db'.recurringTransactions) := by
  unfold skip_recurring_transaction at hok
  rw [hfind] at hok
  simp only [] at hok
  cases hgate : ensure_account_edit_access db userId rt0.accountId with
  | error err =>
      rw [hgate, errorBind] at hok
      exact absurd hok (by simp)
  | ok u =>
      cases u
      rw [hgate, okBind] at hok
      by_cases hacc : (db.accounts.any fun a => a.id == rt0.accountId) = true
      · rw [if_pos hacc] at hok
        have hpair := Except.ok.inj hok
        have hdb' : db' = { db with
            recurringTransactions := db.recurringTransactions.map fun rt =>
              if rt.id == recurringId &&
                  db.accounts.any (fun a => a.id == rt.accountId) then
                advanceRecurring rt
              else rt } := (congrArg Prod.fst hpair).symm
        have hout : out = advanceRecurring rt0 := (congrArg Prod.snd hpair).symm
        subst hdb' hout
        refine ⟨rfl, rfl, rfl, rfl, rfl, rfl, rfl, rfl, rfl, rfl, rfl, rfl, rfl,
          rfl, ?_⟩
        intro rt hmem hne
        rw [List.mem_map]
        refine ⟨rt, hmem, ?_⟩
        have : (rt.id == recurringId) = false := by
          simp [hne]
        simp [this]
      · rw [Bool.not_eq_true] at hacc
        rw [if_neg (by simp [hacc])] at hok
        exact absurd hok (by simp)

/-- Witness for C6 at `c6Db`: the owner skips obligation 2; `next_occurs_at`
moves from 1000 to 1000 + 7 days and no transaction row appears. -/
theorem C6_skip_one_interval_no_insert_witness :
    c6DbAfter.transactions = c6Db.transactions ∧
    c6Out.nextOccursAt = 1000 + 7 * daySecs := by
  have h := C6_skip_one_interval_no_insert c6Db c6DbAfter 5 2
    ⟨2, 1, 100, "USD", "expense", none, 7, 1000, true⟩ c6Out rfl (by decide)
  exact ⟨h.1, h.2.2.2.2.2.1⟩

/-- `advanceRecurring` keeps the row id. -/
theorem advanceRecurring_id (rt : RecurringTransaction) :
    (advanceRecurring rt).id = rt.id := rfl

/-- In a row list with pairwise-distinct ids, filtering by a member's id
returns exactly that member. -/
theorem filter_by_id_of_nodup (rows : List RecurringTransaction)
    (rt0 : RecurringTransaction) (hmem : rt0 ∈ rows)
    (hids : (rows.map (fun rt => rt.id)).Nodup) :
    rows.filter (fun rt => rt.id == rt0.id) = [rt0] := by
  induction rows with
  | nil => cases hmem
  | cons r rs ih =>
      rw [List.map_cons, List.nodup_cons] at hids
      obtain ⟨hnotin, hnodup⟩ := hids
      cases List.mem_cons.mp hmem with
      | inl heq =>
          subst heq
          rw [List.filter_cons_of_pos (by simp)]
          have hnil : rs.filter (fun rt => rt.id == rt0.id) = [] := by
            rw [List.filter_eq_nil_iff]
            intro a ha
            simp only [beq_iff_eq]
            intro hid
            exact hnotin (hid ▸ List.mem_map_of_mem (fun rt => rt.id) ha)
          rw [hnil]
      | inr hmem' =>
          have hne : ¬((r.id == rt0.id) = true) := by
            simp only [beq_iff_eq]
            intro h
            exact hnotin (h ▸ List.mem_map_of_mem (fun rt => rt.id) hmem')
          rw [List.filter_cons_of_neg
            (p := fun rt : RecurringTransaction => rt.id == rt0.id) hne]
          exact ih hmem' hnodup

/-- A function commuting with the filter predicate moves through
`filter ∘ map`. -/
theorem filter_map_comm (g : RecurringTransaction → RecurringTransaction)
    (q : RecurringTransaction → Bool) (hq : ∀ rt, q (g rt) = q rt)
    (rows : List RecurringTransaction) :
    (rows.map g).filter q = (rows.filter q).map g := by
  induction rows with
  | nil => rfl
  | cons r rs ih =>
      rw [List.map_cons]
      by_cases hr : q r = true
      · rw [List.filter_cons_of_pos (by rw [hq]; exact hr),
          List.filter_cons_of_pos hr, List.map_cons, ih]
      · rw [List.filter_cons_of_neg (by rw [hq]; exact hr),
          List.filter_cons_of_neg hr, ih]

/-- Core behaviour of one scheduler tick on one due obligation, shared by the
claims about `refresh_recurring_transactions`: in a table with distinct ids, a
due obligation appears exactly once in the `due` claim set, and the tick's row
update rewrites exactly its row to the one-interval advance. -/
theorem tick_core (db : Db) (now : Timestamp) (f : Nat → Uuid)
    (rt0 : RecurringTransaction) (hmem : rt0 ∈ db.recurringTransactions)
    (hids : (db.recurringTransactions.map (fun rt => rt.id)).Nodup)
    (hdue : rt0.nextOccursAt ≤ now) :
    (dueRows db.recurringTransactions now).filter
        (fun d => d.id == rt0.id) = [rt0] ∧
    (refresh_recurring_transactions db now f).recurringTransactions.filter
        (fun rt => rt.id == rt0.id) = [advanceRecurring rt0] := by
  have hdmem : rt0 ∈ dueRows db.recurringTransactions now := by
    rw [dueRows, List.mem_filter]
    exact ⟨hmem, by simpa using hdue⟩
  have hsub : List.Sublist (dueRows db.recurringTransactions now)
      db.recurringTransactions := List.filter_sublist _
  have hdids : ((dueRows db.recurringTransactions now).map
      (fun rt => rt.id)).Nodup :=
    hids.sublist (hsub.map (fun rt => rt.id))
  have hdsing : (dueRows db.recurringTransactions now).filter
      (fun d => d.id == rt0.id) = [rt0] :=
    filter_by_id_of_nodup _ rt0 hdmem hdids
  refine ⟨hdsing, ?_⟩
  have hg : ∀ rt : RecurringTransaction,
      ((if ((dueRows db.recurringTransactions now).map
          (fun d => d.id)).contains rt.id then advanceRecurring rt
        else rt).id == rt0.id) = (rt.id == rt0.id) := by
    intro rt
    by_cases h : ((dueRows db.recurringTransactions now).map
        (fun d => d.id)).contains rt.id = true
    · rw [if_pos h, advanceRecurring_id]
    · rw [if_neg h]
  have hmap := filter_map_comm
    (fun rt => if ((dueRows db.recurringTransactions now).map
        (fun d => d.id)).contains rt.id then advanceRecurring rt else rt)
    (fun rt => rt.id == rt0.id) hg db.recurringTransactions
  have hsing : db.recurringTransactions.filter
      (fun rt => rt.id == rt0.id) = [rt0] :=
    filter_by_id_of_nodup _ rt0 hmem hids
  have hin : ((dueRows db.recurringTransactions now).map
      (fun d => d.id)).contains rt0.id = true := by
    have : rt0.id ∈ (dueRows db.recurringTransactions now).map
        (fun d => d.id) := List.mem_map_of_mem (fun d => d.id) hdmem
    simpa using this
  calc (refresh_recurring_transactions db now f).recurringTransactions.filter
        (fun rt => rt.id == rt0.id)
      = (db.recurringTransactions.filter (fun rt => rt.id == rt0.id)).map
          (fun rt => if ((dueRows db.recurringTransactions now).map
              (fun d => d.id)).contains rt.id then advanceRecurring rt
            else rt) := hmap
    _ = [advanceRecurring rt0] := by rw [hsing, List.map_cons, if_pos hin]; rfl

/-- C2: for a due obligation (`next_occurs_at = t ≤ now`, table ids distinct),
one tick of `refresh_recurring_transactions` — a single SQL statement, so one
atomic unit producing both effects in the same returned state — claims the
obligation exactly once, appends per due row exactly one transaction copying
account, amount, currency, kind and description and dated at the pre-advance
value `t`, and rewrites the obligation's row to `next_occurs_at = t +
interval_days` days. -/
theorem C2_tick_fires_once_atomically (db : Db) (now : Timestamp)
    (f : Nat → Uuid) (rt0 : RecurringTransaction)
    (hmem : rt0 ∈ db.recurringTransactions)
    (hids : (db.recurringTransactions.map (fun rt => rt.id)).Nodup)
    (hdue : rt0.nextOccursAt ≤ now) :
    (dueRows db.recurringTransactions now).filter
        (fun d => d.id == rt0.id) = [rt0] ∧
    (refresh_recurring_transactions db now f).transactions =
      db.transactions ++ (dueRows db.recurringTransactions now).enum.map
        (fun p => fireTransaction (f p.1) p.2) ∧
    (∀ i, fireTransaction i rt0 =
      { id := i, accountId := rt0.accountId, amount := rt0.amount,
        currencyCode := rt0.currencyCode,
        transactionType := rt0.transactionType,
        description := rt0.description,
        occurredAt := rt0.nextOccursAt }) ∧
    (refresh_recurring_transactions db now f).recurringTransactions.filter
        (fun rt => rt.id == rt0.id) = [advanceRecurring rt0] ∧
    (advanceRecurring rt0).nextOccursAt =
      rt0.nextOccursAt + rt0.intervalDays * daySecs := by
  obtain ⟨h1, h2⟩ := tick_core db now f rt0 hmem hids hdue
  exact ⟨h1, rfl, fun i => rfl, h2, rfl⟩

/-- Witness for C2 at `c6Db` with `now = 2000`: obligation 2 (due at 1000)
fires exactly once. -/
theorem C2_tick_fires_once_atomically_witness :
    (dueRows c6Db.recurringTransactions 2000).filter
        (fun d => d.id == 2) = [⟨2, 1, 100, "USD", "expense", none, 7, 1000, true⟩] ∧
    (refresh_recurring_transactions c6Db 2000 (fun _ => 99)).recurringTransactions.filter
        (fun rt => rt.id == 2) =
      [advanceRecurring ⟨2, 1, 100, "USD", "expense", none, 7, 1000, true⟩] := by
  have h := C2_tick_fires_once_atomically c6Db 2000 (fun _ => 99)
    ⟨2, 1, 100, "USD", "expense", none, 7, 1000, true⟩
    (by decide) (by decide) (by decide)
  exact ⟨h.1, h.2.2.2.1⟩

/-- C5: when at least one further whole interval has already elapsed
(`t + d days ≤ now`), one tick still claims the obligation exactly once,
inserts exactly one transaction for it, and advances `next_occurs_at` by
exactly one interval — leaving the row still due (`≤ now`), so a backlog is
cleared one interval per tick. -/
theorem C5_tick_advances_single_interval (db : Db) (now : Timestamp)
    (f : Nat → Uuid) (rt0 : RecurringTransaction)
    (hmem : rt0 ∈ db.recurringTransactions)
    (hids : (db.recurringTransactions.map (fun rt => rt.id)).Nodup)
    (hpos : 1 ≤ rt0.intervalDays)
    (hlate : rt0.nextOccursAt + rt0.intervalDays * daySecs ≤ now) :
    (dueRows db.recurringTransactions now).filter
        (fun d => d.id == rt0.id) = [rt0] ∧
    (refresh_recurring_transactions db now f).transactions =
      db.transactions ++ (dueRows db.recurringTransactions now).enum.map
        (fun p => fireTransaction (f p.1) p.2) ∧
    (refresh_recurring_transactions db now f).recurringTransactions.filter
        (fun rt => rt.id == rt0.id) = [advanceRecurring rt0] ∧
    (advanceRecurring rt0).nextOccursAt =
      rt0.nextOccursAt + rt0.intervalDays * daySecs ∧
    (advanceRecurring rt0).nextOccursAt ≤ now := by
  have hstep : (86400 : Int) ≤ rt0.intervalDays * daySecs := by
    have h1 : (1 : Int) * daySecs ≤ rt0.intervalDays * daySecs := by
      apply mul_le_mul_of_nonneg_right hpos
      norm_num [daySecs]
    simpa [daySecs] using h1
  have hdue : rt0.nextOccursAt ≤ now := by linarith
  obtain ⟨h1, h2⟩ := tick_core db now f rt0 hmem hids hdue
  exact ⟨h1, rfl, h2, rfl, by simpa [advanceRecurring] using hlate⟩

/-- Witness for C5 at `c6Db` with `now = 1300000`: obligation 2 is more than
two intervals overdue (1000 + 604800 ≤ 1300000) yet advances to
1000 + 604800 only, which is still due. -/
theorem C5_tick_advances_single_interval_witness :
    (refresh_recurring_transactions c6Db 1300000
        (fun _ => 99)).recurringTransactions.filter
      (fun rt => rt.id == 2) =
      [advanceRecurring ⟨2, 1, 100, "USD", "expense", none, 7, 1000, true⟩] ∧
    (advanceRecurring
      (⟨2, 1, 100, "USD", "expense", none, 7, 1000, true⟩ :
        RecurringTransaction)).nextOccursAt ≤ 1300000 := by
  have h := C5_tick_advances_single_interval c6Db 1300000 (fun _ => 99)
    ⟨2, 1, 100, "USD", "expense", none, 7, 1000, true⟩
    (by decide) (by decide) (by decide) (by decide)
  exact ⟨h.2.2.1, h.2.2.2.2⟩

/-- C9: the tick's due set is a filter on `next_occurs_at ≤ now` alone — the
`is_enabled` flag is never consulted — so a due obligation with
`is_enabled = false` is still claimed, fired and advanced exactly as an
enabled one (the `hdis` hypothesis is not needed anywhere in the proof). -/
theorem C9_tick_ignores_is_enabled (db : Db) (now : Timestamp)
    (f : Nat → Uuid) (rt0 : RecurringTransaction)
    (hmem : rt0 ∈ db.recurringTransactions)
    (hids : (db.recurringTransactions.map (fun rt => rt.id)).Nodup)
    (hdue : rt0.nextOccursAt ≤ now)
    (hdis : rt0.isEnabled = false) :
    dueRows db.recurringTransactions now =
      db.recurringTransactions.filter (fun rt => rt.nextOccursAt ≤ now) ∧
    rt0 ∈ dueRows db.recurringTransactions now ∧
    (dueRows db.recurringTransactions now).filter
        (fun d => d.id == rt0.id) = [rt0] ∧
    (refresh_recurring_transactions db now f).transactions =
      db.transactions ++ (dueRows db.recurringTransactions now).enum.map
        (fun p => fireTransaction (f p.1) p.2) ∧
    (refresh_recurring_transactions db now f).recurringTransactions.filter
        (fun rt => rt.id == rt0.id) = [advanceRecurring rt0] := by
  obtain ⟨h1, h2⟩ := tick_core db now f rt0 hmem hids hdue
  refine ⟨rfl, ?_, h1, rfl, h2⟩
  rw [dueRows, List.mem_filter]
  exact ⟨hmem, by simpa using hdue⟩

/-- Witness for C9 at `c9Db` with `now = 2000`: the disabled obligation still
fires and advances. -/
theorem C9_tick_ignores_is_enabled_witness :
    (⟨2, 1, 100, "USD", "expense", none, 7, 1000, false⟩ :
        RecurringTransaction) ∈ dueRows c9Db.recurringTransactions 2000 ∧
    (refresh_recurring_transactions c9Db 2000
        (fun _ => 99)).recurringTransactions.filter
      (fun rt => rt.id == 2) =
      [advanceRecurring ⟨2, 1, 100, "USD", "expense", none, 7, 1000, false⟩] := by
  have h := C9_tick_ignores_is_enabled c9Db 2000 (fun _ => 99)
    ⟨2, 1, 100, "USD", "expense", none, 7, 1000, false⟩
    (by decide) (by decide) (by decide) (by decide)
  exact ⟨h.2.1, h.2.2.2.2⟩

/-- C4 counterexample: `update_recurring_transaction` lets the account owner
set obligation 2's `next_occurs_at` from 1000 back to 0 — an operation of the
system that moves `next_occurs_at` to an earlier value, not to its previous
value plus `interval_days`. -/
theorem C4_counterexample :
    update_recurring_transaction c6Db 5 2 c4Payload =
      .ok (c4DbAfter, c4RowAfter) ∧
    c4RowAfter.nextOccursAt < 1000 := by
  constructor
  · decide
  · decide

/-- C4 amended: the scheduler firing and manual skip advance `next_occurs_at`
by exactly `interval_days` days added to its own previous value (never
wall-clock now); but `update_recurring_transaction` is a further operation
that changes it, writing the caller-supplied payload value whenever one is
present — possibly an earlier value — and leaving it unchanged otherwise. -/
theorem C4_amended (db db' : Db) (now : Timestamp) (f : Nat → Uuid)
    (userId recurringId : Uuid) (rt0 out : RecurringTransaction)
    (p : UpdateRecurringTransactionRequest)
    (hmem : rt0 ∈ db.recurringTransactions)
    (hids : (db.recurringTransactions.map (fun rt => rt.id)).Nodup)
    (hdue : rt0.nextOccursAt ≤ now) :
    ((refresh_recurring_transactions db now f).recurringTransactions.filter
        (fun rt => rt.id == rt0.id) = [advanceRecurring rt0] ∧
      (advanceRecurring rt0).nextOccursAt =
        rt0.nextOccursAt + rt0.intervalDays * daySecs) ∧
    (∀ rt1, findRecurring db recurringId = some rt1 →
      skip_recurring_transaction db userId recurringId = .ok (db', out) →
      out.nextOccursAt = rt1.nextOccursAt + rt1.intervalDays * daySecs) ∧
    (∀ rt1, findRecurring db recurringId = some rt1 →
      update_recurring_transaction db userId recurringId p = .ok (db', out) →
      out.nextOccursAt = p.nextOccursAt.getD rt1.nextOccursAt) := by
  obtain ⟨-, h2⟩ := tick_core db now f rt0 hmem hids hdue
  refine ⟨⟨h2, rfl⟩, fun rt1 hfind hok => ?_, fun rt1 hfind hok => ?_⟩
  · unfold skip_recurring_transaction at hok
    rw [hfind] at hok
    simp only [] at hok
    cases hgate : ensure_account_edit_access db userId rt1.accountId with
    | error err =>
        rw [hgate, errorBind] at hok
        exact absurd hok (by simp)
    | ok u =>
        cases u
        rw [hgate, okBind] at hok
        by_cases hacc : (db.accounts.any fun a => a.id == rt1.accountId) = true
        · rw [if_pos hacc] at hok
          have hout : out = advanceRecurring rt1 :=
            (congrArg Prod.snd (Except.ok.inj hok)).symm
          rw [hout]
          rfl
        · rw [Bool.not_eq_true] at hacc
          rw [if_neg (by simp [hacc])] at hok
          exact absurd hok (by simp)
  · unfold update_recurring_transaction at hok
    rw [hfind] at hok
    simp only [] at hok
    cases hgate : ensure_account_edit_access db userId rt1.accountId with
    | error err =>
        rw [hgate, errorBind] at hok
        exact absurd hok (by simp)
    | ok u =>
        cases u
        rw [hgate, okBind] at hok
        have hout : out = applyRecurringUpdate p rt1 := by
          cases hpa : p.accountId with
          | none =>
              rw [hpa] at hok
              simp only [pureBind] at hok
              exact (congrArg Prod.snd (Except.ok.inj hok)).symm
          | some newAccountId =>
              rw [hpa] at hok
              simp only [] at hok
              cases hgate2 : ensure_account_edit_access db userId newAccountId with
              | error err =>
                  rw [hgate2, errorBind] at hok
                  exact absurd hok (by simp)
              | ok u =>
                  cases u
                  rw [hgate2, okBind] at hok
                  exact (congrArg Prod.snd (Except.ok.inj hok)).symm
        rw [hout]
        rfl

/-- Witness for C4 amended: at `c6Db`, the tick fact at `now = 2000` and the
payload-written value of the counterexample update. -/
theorem C4_amended_witness :
    (refresh_recurring_transactions c6Db 2000
        (fun _ => 99)).recurringTransactions.filter
      (fun rt => rt.id == 2) =
      [advanceRecurring ⟨2, 1, 100, "USD", "expense", none, 7, 1000, true⟩] ∧
    c4RowAfter.nextOccursAt = c4Payload.nextOccursAt.getD 1000 := by
  have h := C4_amended c6Db c4DbAfter 2000 (fun _ => 99) 5 2
    ⟨2, 1, 100, "USD", "expense", none, 7, 1000, true⟩ c4RowAfter c4Payload
    (by decide) (by decide) (by decide)
  refine ⟨h.1.1, ?_⟩
  have := h.2.2 ⟨2, 1, 100, "USD", "expense", none, 7, 1000, true⟩ rfl (by decide)
  simpa using this

/-! ## Helper lemmas for the concurrent scheduler model -/

/-- `List.contains` agrees with membership for `Uuid` lists. -/
theorem uuidContains (l : List Uuid) (v : Uuid) :
    l.contains v = true ↔ v ∈ l := List.elem_iff

/-- Membership in `dueIds`, unfolded. -/
theorem mem_dueIds (rows0 : List RecurringTransaction) (now : Timestamp)
    (v : Uuid) : v ∈ dueIds rows0 now ↔
      ∃ rt, rt ∈ rows0 ∧ rt.id = v ∧ rt.nextOccursAt ≤ now := by
  constructor
  · intro h
    obtain ⟨rt, hmem, hid⟩ := List.mem_map.mp h
    rw [dueRows, List.mem_filter] at hmem
    exact ⟨rt, hmem.1, hid, by simpa using hmem.2⟩
  · rintro ⟨rt, hmem, hid, hdue⟩
    refine List.mem_map.mpr ⟨rt, ?_, hid⟩
    rw [dueRows, List.mem_filter]
    exact ⟨hmem, by simpa using hdue⟩

/-- In a nodup-ids table, two members with equal ids are equal. -/
theorem eq_of_mem_same_id (rows0 : List RecurringTransaction)
    (hids : (rows0.map fun rt => rt.id).Nodup)
    (rt0 rt1 : RecurringTransaction) (h0 : rt0 ∈ rows0) (h1 : rt1 ∈ rows0)
    (hid : rt1.id = rt0.id) : rt1 = rt0 := by
  have hfil := filter_by_id_of_nodup rows0 rt0 h0 hids
  have : rt1 ∈ rows0.filter fun rt => rt.id == rt0.id :=
    List.mem_filter.mpr ⟨h1, by simpa using hid⟩
  rw [hfil] at this
  simpa using this

/-- A member of the table whose id is due is itself due. -/
theorem due_of_id_mem_dueIds (rows0 : List RecurringTransaction)
    (now : Timestamp) (hids : (rows0.map fun rt => rt.id).Nodup)
    (rt0 : RecurringTransaction) (hmem : rt0 ∈ rows0)
    (h : rt0.id ∈ dueIds rows0 now) : rt0.nextOccursAt ≤ now := by
  obtain ⟨rt, hrt, hid, hdue⟩ := (mem_dueIds rows0 now rt0.id).mp h
  have : rt = rt0 := eq_of_mem_same_id rows0 hids rt0 rt hmem hrt hid
  rw [this] at hdue
  exact hdue

/-- `claimLists` of a cons, by cases on the head phase. -/
theorem claimLists_cons_claimed (ids : List Uuid) (rest : List Phase) :
    claimLists (Phase.claimed ids :: rest) = ids :: claimLists rest := rfl

/-- `claimLists` ignores a `start` head. -/
theorem claimLists_cons_start (rest : List Phase) :
    claimLists (Phase.start :: rest) = claimLists rest := rfl

/-- `claimLists` ignores a `finished` head. -/
theorem claimLists_cons_finished (rest : List Phase) :
    claimLists (Phase.finished :: rest) = claimLists rest := rfl

/-- Claiming at a `start` position adds one claim list, up to permutation. -/
theorem claimLists_set_claimed (insts : List Phase) (i : Nat) (ids : List Uuid)
    (h : insts.get? i = some Phase.start) :
    List.Perm (claimLists (insts.set i (Phase.claimed ids)))
      (ids :: claimLists insts) := by
  induction insts generalizing i with
  | nil => simp at h
  | cons ph rest ih =>
      cases i with
      | zero =>
          simp only [List.get?] at h
          have hph : ph = Phase.start := by injection h
          subst hph
          rw [List.set, claimLists_cons_claimed, claimLists_cons_start]
      | succ j =>
          simp only [List.get?] at h
          have hrec := ih j h
          rw [List.set]
          cases ph with
          | start =>
              rw [claimLists_cons_start, claimLists_cons_start]
              exact hrec
          | finished =>
              rw [claimLists_cons_finished, claimLists_cons_finished]
              exact hrec
          | claimed c =>
              rw [claimLists_cons_claimed, claimLists_cons_claimed]
              exact (hrec.cons c).trans (List.Perm.swap ids c _)

/-- Committing a `claimed` position removes its claim list, up to
permutation. -/
theorem claimLists_set_finished (insts : List Phase) (i : Nat)
    (ids : List Uuid) (h : insts.get? i = some (Phase.claimed ids)) :
    List.Perm (claimLists insts)
      (ids :: claimLists (insts.set i Phase.finished)) := by
  induction insts generalizing i with
  | nil => simp at h
  | cons ph rest ih =>
      cases i with
      | zero =>
          simp only [List.get?] at h
          have hph : ph = Phase.claimed ids := by injection h
          subst hph
          rw [List.set, claimLists_cons_claimed, claimLists_cons_finished]
      | succ j =>
          simp only [List.get?] at h
          have hrec := ih j h
          rw [List.set]
          cases ph with
          | start =>
              rw [claimLists_cons_start, claimLists_cons_start]
              exact hrec
          | finished =>
              rw [claimLists_cons_finished, claimLists_cons_finished]
              exact hrec
          | claimed c =>
              rw [claimLists_cons_claimed, claimLists_cons_claimed]
              exact (hrec.cons c).trans (List.Perm.swap ids c _)

/-- The claim list at a `claimed` position is one of the claim lists. -/
theorem mem_claimLists_of_get? (insts : List Phase) (i : Nat)
    (ids : List Uuid) (h : insts.get? i = some (Phase.claimed ids)) :
    ids ∈ claimLists insts := by
  induction insts generalizing i with
  | nil => simp at h
  | cons ph rest ih =>
      cases i with
      | zero =>
          simp only [List.get?] at h
          have hph : ph = Phase.claimed ids := by injection h
          subst hph
          rw [claimLists_cons_claimed]
          exact List.mem_cons_self _ _
      | succ j =>
          simp only [List.get?] at h
          have hrec := ih j h
          cases ph with
          | start => rw [claimLists_cons_start]; exact hrec
          | finished => rw [claimLists_cons_finished]; exact hrec
          | claimed c =>
              rw [claimLists_cons_claimed]
              exact List.mem_cons_of_mem c hrec

/-- All-finished instances hold no claim lists. -/
theorem claimLists_eq_nil (insts : List Phase)
    (h : ∀ ph ∈ insts, ph = Phase.finished) : claimLists insts = [] := by
  induction insts with
  | nil => rfl
  | cons ph rest ih =>
      have hph := h ph (List.mem_cons_self _ _)
      subst hph
      rw [claimLists_cons_finished]
      exact ih fun q hq => h q (List.mem_cons_of_mem _ hq)

/-- Filtering by a disjunction of disjoint predicates splits, up to
permutation, into the two filters. -/
theorem filter_or_perm {α : Type} (l : List α) (p q : α → Bool)
    (hdisj : ∀ a ∈ l, ¬(p a = true ∧ q a = true)) :
    List.Perm (l.filter fun a => p a || q a) (l.filter p ++ l.filter q) := by
  induction l with
  | nil => simp
  | cons a rest ih =>
      have hd := hdisj a (List.mem_cons_self _ _)
      have ih' := ih fun b hb => hdisj b (List.mem_cons_of_mem _ hb)
      by_cases hp : p a = true
      · have hq' : q a = false := by
          rcases Bool.eq_false_or_eq_true (q a) with h | h
          · exact absurd ⟨hp, h⟩ hd
          · exact h
        rw [List.filter_cons_of_pos (by simp [hp]),
          List.filter_cons_of_pos hp,
          List.filter_cons_of_neg (by simp [hq']), List.cons_append]
        exact ih'.cons a
      · have hp' : p a = false := Bool.eq_false_iff.mpr hp
        by_cases hq : q a = true
        · rw [List.filter_cons_of_pos (by simp [hp', hq]),
            List.filter_cons_of_neg hp, List.filter_cons_of_pos hq]
          exact (ih'.cons a).trans List.perm_middle.symm
        · have hq' : q a = false := Bool.eq_false_iff.mpr hq
          rw [List.filter_cons_of_neg (by simp [hp', hq']),
            List.filter_cons_of_neg hp, List.filter_cons_of_neg hq]
          exact ih'

/-- Stripping ids from the per-position-fired transactions of a list gives the
id-free firings. -/
theorem strip_enumFrom_fire (l : List RecurringTransaction) (g : Nat → Uuid) :
    ∀ n, ((l.enumFrom n).map fun p => fireTransaction (g p.1) p.2).map stripTx
      = l.map fireStrip := by
  induction l with
  | nil => intro n; rfl
  | cons rt rest ih =>
      intro n
      rw [List.enumFrom, List.map_cons, List.map_cons, ih (n + 1),
        List.map_cons]
      rfl

/-- Rows of an `InvAt` state carry the same ids, in order, as the initial
table. -/
theorem inv_rows_ids (rows0 : List RecurringTransaction)
    (txns0 : List Transaction) (now : Timestamp) (procIds : List Uuid)
    (s : RunState) (hinv : InvAt rows0 txns0 now procIds s) :
    s.rows.map (fun rt => rt.id) = rows0.map fun rt => rt.id := by
  rw [hinv.hrows, List.map_map]
  refine List.map_congr_left fun rt _ => ?_
  simp only [Function.comp]
  split
  · exact advanceRecurring_id rt
  · rfl

/-- The rows selected by a claim are exactly original, unprocessed, unlocked
due rows; their ids are due, unprocessed, unlocked and distinct. -/
theorem claim_selection (rows0 : List RecurringTransaction)
    (txns0 : List Transaction) (now : Timestamp) (procIds : List Uuid)
    (s : RunState)
    (hids : (rows0.map fun rt => rt.id).Nodup)
    (hone : ∀ rt ∈ rows0, rt.nextOccursAt ≤ now →
      now < rt.nextOccursAt + rt.intervalDays * daySecs)
    (hinv : InvAt rows0 txns0 now procIds s) :
    (∀ v ∈ (s.rows.filter fun rt =>
        decide (rt.nextOccursAt ≤ now) && !(s.locked.contains rt.id)).map
          (fun rt => rt.id),
      v ∈ dueIds rows0 now ∧ v ∉ procIds ∧ v ∉ s.locked) ∧
    ((s.rows.filter fun rt =>
        decide (rt.nextOccursAt ≤ now) && !(s.locked.contains rt.id)).map
          (fun rt => rt.id)).Nodup := by
  constructor
  · intro v hv
    obtain ⟨r, hr, hrid⟩ := List.mem_map.mp hv
    rw [List.mem_filter] at hr
    obtain ⟨hrmem, hP⟩ := hr
    simp only [Bool.and_eq_true, decide_eq_true_eq, Bool.not_eq_true'] at hP
    obtain ⟨hrdue, hrunlocked⟩ := hP
    rw [hinv.hrows] at hrmem
    obtain ⟨rt0, hrt0, hf⟩ := List.mem_map.mp hrmem
    by_cases hc : procIds.contains rt0.id = true
    · exfalso
      rw [if_pos hc] at hf
      have hpdue : rt0.nextOccursAt ≤ now :=
        due_of_id_mem_dueIds rows0 now hids rt0 hrt0
          (hinv.hproc_due rt0.id ((uuidContains procIds rt0.id).mp hc))
      have hgt := hone rt0 hrt0 hpdue
      rw [← hf] at hrdue
      have : (advanceRecurring rt0).nextOccursAt =
          rt0.nextOccursAt + rt0.intervalDays * daySecs := rfl
      rw [this] at hrdue
      exact absurd hrdue (not_le.mpr hgt)
    · rw [if_neg hc] at hf
      rw [← hf] at hrdue hrunlocked hrid
      subst hrid
      refine ⟨(mem_dueIds rows0 now rt0.id).mpr ⟨rt0, hrt0, rfl, hrdue⟩, ?_, ?_⟩
      · intro hmemp
        rw [(uuidContains procIds rt0.id).mpr hmemp] at hc
        exact hc rfl
      · intro hmeml
        rw [(uuidContains s.locked rt0.id).mpr hmeml] at hrunlocked
        simp at hrunlocked
  · have hsub : List.Sublist
        ((s.rows.filter fun rt =>
          decide (rt.nextOccursAt ≤ now) && !(s.locked.contains rt.id)).map
            (fun rt => rt.id))
        (s.rows.map fun rt => rt.id) :=
      (List.filter_sublist _).map _
    rw [inv_rows_ids rows0 txns0 now procIds s hinv] at hsub
    exact hids.sublist hsub

/-- A claim step preserves the invariant with the same processed set. -/
theorem claimStep_inv (rows0 : List RecurringTransaction)
    (txns0 : List Transaction) (now : Timestamp) (procIds : List Uuid)
    (s s' : RunState) (i : Nat)
    (hids : (rows0.map fun rt => rt.id).Nodup)
    (hone : ∀ rt ∈ rows0, rt.nextOccursAt ≤ now →
      now < rt.nextOccursAt + rt.intervalDays * daySecs)
    (hinv : InvAt rows0 txns0 now procIds s)
    (hstep : claimStep now s i = some s') :
    InvAt rows0 txns0 now procIds s' := by
  unfold claimStep at hstep
  cases hget : s.insts.get? i with
  | none => rw [hget] at hstep; exact absurd hstep (by simp)
  | some ph =>
      rw [hget] at hstep
      cases ph with
      | claimed ids => exact absurd hstep (by simp)
      | finished => exact absurd hstep (by simp)
      | start =>
          simp only [] at hstep
          have hs' := (Option.some.inj hstep).symm
          subst hs'
          obtain ⟨hsel, hndp⟩ :=
            claim_selection rows0 txns0 now procIds s hids hone hinv
          set mids := (s.rows.filter fun rt =>
            decide (rt.nextOccursAt ≤ now) && !(s.locked.contains rt.id)).map
              (fun rt => rt.id) with hmids
          have hperm := claimLists_set_claimed s.insts i mids hget
          refine ⟨hinv.hrows, hinv.hproc_due, hinv.hproc_nodup, hinv.htxns,
            ?_, ?_, ?_, ?_, ?_⟩
          · show ∀ c ∈ claimLists (s.insts.set i (Phase.claimed mids)),
              ∀ v ∈ c, v ∈ dueIds rows0 now
            intro c hc v hv
            rcases List.mem_cons.mp (hperm.mem_iff.mp hc) with h | h
            · subst h; exact (hsel v hv).1
            · exact hinv.hclaims_due c h v hv
          · show ∀ c ∈ claimLists (s.insts.set i (Phase.claimed mids)),
              ∀ v ∈ c, v ∉ procIds
            intro c hc v hv
            rcases List.mem_cons.mp (hperm.mem_iff.mp hc) with h | h
            · subst h; exact (hsel v hv).2.1
            · exact hinv.hclaims_unproc c h v hv
          · show List.Perm (s.locked ++ mids)
              (claimLists (s.insts.set i (Phase.claimed mids))).flatten
            have hl1 : List.Perm (s.locked ++ mids)
                ((claimLists s.insts).flatten ++ mids) :=
              hinv.hlocked.append (List.Perm.refl mids)
            have hl2 : List.Perm ((claimLists s.insts).flatten ++ mids)
                (mids ++ (claimLists s.insts).flatten) :=
              List.perm_append_comm
            have hl3 : List.Perm
                (claimLists (s.insts.set i (Phase.claimed mids))).flatten
                (mids ++ (claimLists s.insts).flatten) := by
              have h := hperm.flatten
              rw [List.flatten_cons] at h
              exact h
            exact (hl1.trans hl2).trans hl3.symm
          · show (s.locked ++ mids).Nodup
            rw [List.nodup_append]
            exact ⟨hinv.hlocked_nodup, hndp,
              fun v hvl hvm => (hsel v hvm).2.2 hvl⟩
          · show (∃ ph ∈ s.insts.set i (Phase.claimed mids),
                ph ≠ Phase.start) →
              ∀ v ∈ dueIds rows0 now, v ∈ procIds ∨ v ∈ s.locked ++ mids
            intro _ v hv
            by_cases hvp : v ∈ procIds
            · exact Or.inl hvp
            · by_cases hvl : v ∈ s.locked
              · exact Or.inr (List.mem_append_left _ hvl)
              · obtain ⟨rt1, hrt1, hid1, hdue1⟩ :=
                  (mem_dueIds rows0 now v).mp hv
                refine Or.inr (List.mem_append_right _ ?_)
                have hcontains : procIds.contains rt1.id = false := by
                  rw [Bool.eq_false_iff]
                  intro hc
                  exact hvp (hid1 ▸ (uuidContains procIds rt1.id).mp hc)
                have hrowmem : rt1 ∈ s.rows := by
                  rw [hinv.hrows]
                  refine List.mem_map.mpr ⟨rt1, hrt1, ?_⟩
                  rw [hcontains]
                  simp
                have hlockedc : s.locked.contains rt1.id = false := by
                  rw [Bool.eq_false_iff]
                  intro hc
                  exact hvl (hid1 ▸ (uuidContains s.locked rt1.id).mp hc)
                rw [hmids]
                refine List.mem_map.mpr ⟨rt1, ?_, hid1⟩
                rw [List.mem_filter]
                refine ⟨hrowmem, ?_⟩
                simp only [Bool.and_eq_true, decide_eq_true_eq,
                  Bool.not_eq_true']
                exact ⟨hdue1, hlockedc⟩

/-- `List.contains` distributes over append. -/
theorem uuidContains_append (l1 l2 : List Uuid) (v : Uuid) :
    (l1 ++ l2).contains v = (l1.contains v || l2.contains v) := by
  induction l1 with
  | nil => rfl
  | cons b rest ih =>
      simp only [List.cons_append, List.contains_cons, ih, Bool.or_assoc]

/-- A commit step preserves the invariant, the processed set growing by the
committing instance's claim list. -/
theorem commitStep_inv (rows0 : List RecurringTransaction)
    (txns0 : List Transaction) (now : Timestamp) (procIds : List Uuid)
    (s s' : RunState) (i : Nat)
    (hinv : InvAt rows0 txns0 now procIds s)
    (hstep : commitStep s i = some s') :
    ∃ ids, InvAt rows0 txns0 now (procIds ++ ids) s' := by
  unfold commitStep at hstep
  cases hget : s.insts.get? i with
  | none => rw [hget] at hstep; exact absurd hstep (by simp)
  | some ph =>
      rw [hget] at hstep
      cases ph with
      | start => exact absurd hstep (by simp)
      | finished => exact absurd hstep (by simp)
      | claimed ids =>
          simp only [] at hstep
          have hs' := (Option.some.inj hstep).symm
          subst hs'
          refine ⟨ids, ?_⟩
          have hmemCL : ids ∈ claimLists s.insts :=
            mem_claimLists_of_get? s.insts i ids hget
          have hids_due : ∀ v ∈ ids, v ∈ dueIds rows0 now :=
            hinv.hclaims_due ids hmemCL
          have hids_unproc : ∀ v ∈ ids, v ∉ procIds :=
            hinv.hclaims_unproc ids hmemCL
          have hCL := claimLists_set_finished s.insts i ids hget
          have hflat : List.Perm s.locked
              (ids ++ (claimLists (s.insts.set i Phase.finished)).flatten) := by
            have h := hCL.flatten
            rw [List.flatten_cons] at h
            exact hinv.hlocked.trans h
          obtain ⟨hids_nodup, hflat_nodup, hdisj⟩ :=
            List.nodup_append.mp (hflat.nodup hinv.hlocked_nodup)
          have hq : ∀ rt : RecurringTransaction,
              (ids.contains ((fun rt => if procIds.contains rt.id then
                advanceRecurring rt else rt) rt).id) = ids.contains rt.id := by
            intro rt
            simp only []
            split
            · rw [advanceRecurring_id]
            · rfl
          have hmine : (s.rows.filter fun rt => ids.contains rt.id) =
              rows0.filter fun rt => ids.contains rt.id := by
            rw [hinv.hrows,
              filter_map_comm _ (fun rt => ids.contains rt.id) hq]
            have hcongr : ∀ rt ∈ rows0.filter (fun rt => ids.contains rt.id),
                (if procIds.contains rt.id then advanceRecurring rt else rt)
                  = rt := by
              intro rt hrt
              rw [List.mem_filter] at hrt
              have hnp : rt.id ∉ procIds :=
                hids_unproc rt.id ((uuidContains ids rt.id).mp hrt.2)
              rw [if_neg fun hc =>
                hnp ((uuidContains procIds rt.id).mp hc)]
            rw [List.map_congr_left hcongr, List.map_id']
          have hlockperm : List.Perm
              (s.locked.filter fun v => !(ids.contains v))
              (claimLists (s.insts.set i Phase.finished)).flatten := by
            have h1 := hflat.filter fun v => !(ids.contains v)
            rw [List.filter_append] at h1
            have h2 : (ids.filter fun v => !(ids.contains v)) = [] := by
              rw [List.filter_eq_nil_iff]
              intro v hv
              rw [(uuidContains ids v).mpr hv]
              simp
            have h3 : ((claimLists (s.insts.set i Phase.finished)).flatten.filter
                fun v => !(ids.contains v)) =
                (claimLists (s.insts.set i Phase.finished)).flatten := by
              rw [List.filter_eq_self]
              intro v hv
              have hni : v ∉ ids := fun hvi => hdisj hvi hv
              rw [Bool.eq_false_iff.mpr fun hc =>
                hni ((uuidContains ids v).mp hc)]
              rfl
            rw [h2, h3] at h1
            simpa using h1
          refine ⟨?_, ?_, ?_, ?_, ?_, ?_, ?_, ?_, ?_⟩
          · show (s.rows.map fun rt =>
                if ids.contains rt.id then advanceRecurring rt else rt) =
              rows0.map fun rt =>
                if (procIds ++ ids).contains rt.id then advanceRecurring rt
                else rt
            rw [hinv.hrows, List.map_map]
            refine List.map_congr_left fun rt _ => ?_
            simp only [Function.comp]
            by_cases hp : rt.id ∈ procIds
            · have hni : rt.id ∉ ids := fun hc => hids_unproc rt.id hc hp
              simp [hp, hni, advanceRecurring_id]
            · by_cases hi : rt.id ∈ ids
              · simp [hp, hi]
              · simp [hp, hi]
          · intro v hv
            rcases List.mem_append.mp hv with h | h
            · exact hinv.hproc_due v h
            · exact hids_due v h
          · rw [List.nodup_append]
            exact ⟨hinv.hproc_nodup, hids_nodup,
              fun v hv1 hv2 => hids_unproc v hv2 hv1⟩
          · obtain ⟨new, hTx, hPerm⟩ := hinv.htxns
            refine ⟨new ++ ((s.rows.filter fun rt =>
              ids.contains rt.id).enum.map fun p =>
                fireTransaction (s.ctr + p.1) p.2), ?_, ?_⟩
            · show s.txns ++ _ = txns0 ++ _
              rw [hTx, List.append_assoc]
            · rw [List.map_append]
              have hXstrip : (((s.rows.filter fun rt =>
                  ids.contains rt.id).enum.map fun p =>
                    fireTransaction (s.ctr + p.1) p.2).map stripTx) =
                  (rows0.filter fun rt => ids.contains rt.id).map fireStrip := by
                have h := strip_enumFrom_fire
                  (s.rows.filter fun rt => ids.contains rt.id)
                  (fun k => s.ctr + k) 0
                rw [← hmine]
                exact h
              rw [hXstrip]
              have hfc : (rows0.filter fun rt =>
                  (procIds ++ ids).contains rt.id) =
                  rows0.filter fun rt =>
                    procIds.contains rt.id || ids.contains rt.id :=
                List.filter_congr fun rt _ => uuidContains_append _ _ _
              have hsplit := filter_or_perm rows0
                (fun rt => procIds.contains rt.id)
                (fun rt => ids.contains rt.id)
                (fun rt _ hand => hids_unproc rt.id
                  ((uuidContains _ _).mp hand.2)
                  ((uuidContains _ _).mp hand.1))
              have htarget : List.Perm
                  ((rows0.filter fun rt =>
                    (procIds ++ ids).contains rt.id).map fireStrip)
                  (((rows0.filter fun rt => procIds.contains rt.id) ++
                    (rows0.filter fun rt => ids.contains rt.id)).map
                      fireStrip) := by
                rw [hfc]
                exact hsplit.map fireStrip
              rw [List.map_append] at htarget
              exact (hPerm.append (List.Perm.refl _)).trans htarget.symm
          · show ∀ c ∈ claimLists (s.insts.set i Phase.finished),
              ∀ v ∈ c, v ∈ dueIds rows0 now
            intro c hc v hv
            exact hinv.hclaims_due c
              (hCL.mem_iff.mpr (List.mem_cons_of_mem _ hc)) v hv
          · show ∀ c ∈ claimLists (s.insts.set i Phase.finished),
              ∀ v ∈ c, v ∉ procIds ++ ids
            intro c hc v hv hvin
            rcases List.mem_append.mp hvin with h | h
            · exact hinv.hclaims_unproc c
                (hCL.mem_iff.mpr (List.mem_cons_of_mem _ hc)) v hv h
            · exact hdisj h (List.mem_flatten.mpr ⟨c, hc, hv⟩)
          · exact hlockperm
          · exact hinv.hlocked_nodup.sublist (List.filter_sublist _)
          · show (∃ ph ∈ s.insts.set i Phase.finished, ph ≠ Phase.start) →
              ∀ v ∈ dueIds rows0 now, v ∈ procIds ++ ids ∨
                v ∈ s.locked.filter fun v => !(ids.contains v)
            intro _ v hv
            have hold := hinv.hfresh
              ⟨Phase.claimed ids, List.get?_mem hget, by simp⟩ v hv
            rcases hold with h | h
            · exact Or.inl (List.mem_append_left _ h)
            · rcases List.mem_append.mp (hflat.mem_iff.mp h) with h1 | h1
              · exact Or.inl (List.mem_append_right _ h1)
              · exact Or.inr (hlockperm.mem_iff.mpr h1)

/-- A valid interleaving preserves the invariant for some processed set. -/
theorem runActions_inv (rows0 : List RecurringTransaction)
    (txns0 : List Transaction) (now : Timestamp)
    (hids : (rows0.map fun rt => rt.id).Nodup)
    (hone : ∀ rt ∈ rows0, rt.nextOccursAt ≤ now →
      now < rt.nextOccursAt + rt.intervalDays * daySecs) :
    ∀ (acts : List Action) (s sF : RunState) (procIds : List Uuid),
      InvAt rows0 txns0 now procIds s →
      runActions now s acts = some sF →
      ∃ procIds', InvAt rows0 txns0 now procIds' sF := by
  intro acts
  induction acts with
  | nil =>
      intro s sF procIds hinv hrun
      rw [runActions] at hrun
      have heq : s = sF := Option.some.inj hrun
      subst heq
      exact ⟨procIds, hinv⟩
  | cons a rest ih =>
      intro s sF procIds hinv hrun
      rw [runActions] at hrun
      cases hap : applyAction now s a with
      | none => rw [hap] at hrun; exact absurd hrun (by simp)
      | some s1 =>
          rw [hap] at hrun
          simp only [] at hrun
          cases a with
          | claim i =>
              have h1 := claimStep_inv rows0 txns0 now procIds s s1 i hids
                hone hinv hap
              exact ih s1 sF procIds h1 hrun
          | commit i =>
              obtain ⟨ids, h1⟩ := commitStep_inv rows0 txns0 now procIds
                s s1 i hinv hap
              exact ih s1 sF (procIds ++ ids) h1 hrun

/-- Every step keeps the number of instances. -/
theorem applyAction_length (now : Timestamp) (s s1 : RunState) (a : Action)
    (h : applyAction now s a = some s1) :
    s1.insts.length = s.insts.length := by
  cases a with
  | claim i =>
      unfold applyAction claimStep at h
      simp only [] at h
      cases hget : s.insts.get? i with
      | none => rw [hget] at h; exact absurd h (by simp)
      | some ph =>
          rw [hget] at h
          cases ph with
          | claimed ids => exact absurd h (by simp)
          | finished => exact absurd h (by simp)
          | start =>
              simp only [] at h
              rw [← Option.some.inj h]
              simp
  | commit i =>
      unfold applyAction commitStep at h
      simp only [] at h
      cases hget : s.insts.get? i with
      | none => rw [hget] at h; exact absurd h (by simp)
      | some ph =>
          rw [hget] at h
          cases ph with
          | start => exact absurd h (by simp)
          | finished => exact absurd h (by simp)
          | claimed ids =>
              simp only [] at h
              rw [← Option.some.inj h]
              simp

/-- A valid interleaving keeps the number of instances. -/
theorem runActions_length (now : Timestamp) :
    ∀ (acts : List Action) (s sF : RunState),
      runActions now s acts = some sF →
      sF.insts.length = s.insts.length := by
  intro acts
  induction acts with
  | nil =>
      intro s sF hrun
      rw [runActions] at hrun
      rw [← Option.some.inj hrun]
  | cons a rest ih =>
      intro s sF hrun
      rw [runActions] at hrun
      cases hap : applyAction now s a with
      | none => rw [hap] at hrun; exact absurd hrun (by simp)
      | some s1 =>
          rw [hap] at hrun
          simp only [] at hrun
          rw [ih s1 sF hrun, applyAction_length now s s1 a hap]

/-- The invariant at the initial run state. -/
theorem initial_inv (rows0 : List RecurringTransaction)
    (txns0 : List Transaction) (now : Timestamp) (n ctr0 : Nat) :
    InvAt rows0 txns0 now []
      ⟨rows0, txns0, [], List.replicate n Phase.start, ctr0⟩ := by
  have hCL : claimLists (List.replicate n Phase.start) = [] := by
    induction n with
    | zero => rfl
    | succ m ih => rw [List.replicate_succ, claimLists_cons_start]; exact ih
  refine ⟨?_, ?_, List.nodup_nil, ⟨[], by simp, ?_⟩, ?_, ?_, ?_,
    List.nodup_nil, ?_⟩
  · show rows0 = rows0.map fun rt =>
      if ([] : List Uuid).contains rt.id then advanceRecurring rt else rt
    refine ((List.map_congr_left fun rt _ => ?_).trans
      (List.map_id' rows0)).symm
    rfl
  · exact fun v hv => absurd hv (List.not_mem_nil v)
  · have hfil : (rows0.filter fun rt =>
        ([] : List Uuid).contains rt.id) = [] := by
      rw [List.filter_eq_nil_iff]
      intro a _
      simp [List.contains]
    rw [hfil]
    rfl
  · rw [hCL]; exact fun c hc => absurd hc (List.not_mem_nil c)
  · rw [hCL]; exact fun c hc => absurd hc (List.not_mem_nil c)
  · rw [hCL]; rfl
  · rintro ⟨ph, hph, hne⟩
    exact absurd (List.eq_of_mem_replicate hph) hne

/-- C3: N concurrent scheduler instances (N ≥ 1), interleaved arbitrarily
over one shared store, with every instance completing its claim-then-commit
statement, produce — for a due set each member of which is due for exactly
this one firing — exactly one transaction per due obligation: the id-free
multiset of new transactions is exactly one firing per due row (no
duplicates, no omissions), every due row is advanced exactly one interval,
and a claim never blocks on a sibling's locks (rows locked by a sibling are
skipped, the claim step being always enabled). -/
theorem C3_concurrent_schedulers_fire_exactly_once
    (rows0 : List RecurringTransaction) (txns0 : List Transaction)
    (now : Timestamp) (n ctr0 : Nat) (acts : List Action) (sF : RunState)
    (hn : 1 ≤ n)
    (hids : (rows0.map fun rt => rt.id).Nodup)
    (hone : ∀ rt ∈ rows0, rt.nextOccursAt ≤ now →
      now < rt.nextOccursAt + rt.intervalDays * daySecs)
    (hrun : runActions now
      ⟨rows0, txns0, [], List.replicate n Phase.start, ctr0⟩ acts = some sF)
    (hdone : ∀ ph ∈ sF.insts, ph = Phase.finished) :
    (∃ new, sF.txns = txns0 ++ new ∧
      List.Perm (new.map stripTx) ((dueRows rows0 now).map fireStrip)) ∧
    sF.rows = rows0.map (fun rt =>
      if rt.nextOccursAt ≤ now then advanceRecurring rt else rt) ∧
    (∀ (s : RunState) (i : Nat), s.insts.get? i = some Phase.start →
      (claimStep now s i).isSome = true) := by
  obtain ⟨procIds, hinvF⟩ := runActions_inv rows0 txns0 now hids hone acts
    _ sF [] (initial_inv rows0 txns0 now n ctr0) hrun
  have hlen : sF.insts.length = n := by
    rw [runActions_length now acts _ sF hrun]
    exact List.length_replicate n Phase.start
  have hlockednil : sF.locked = [] := by
    have h := hinvF.hlocked
    rw [claimLists_eq_nil sF.insts hdone] at h
    exact h.eq_nil
  have hnonempty : ∃ ph, ph ∈ sF.insts := by
    cases hF : sF.insts with
    | nil => rw [hF] at hlen; simp at hlen; omega
    | cons p rest => exact ⟨p, List.mem_cons_self _ _⟩
  obtain ⟨ph, hph⟩ := hnonempty
  have hnot_start : ph ≠ Phase.start := by
    rw [hdone ph hph]
    simp
  have hdue_proc : ∀ v ∈ dueIds rows0 now, v ∈ procIds := by
    intro v hv
    rcases hinvF.hfresh ⟨ph, hph, hnot_start⟩ v hv with h | h
    · exact h
    · rw [hlockednil] at h
      exact absurd h (List.not_mem_nil v)
  have hpred : ∀ rt ∈ rows0,
      procIds.contains rt.id = decide (rt.nextOccursAt ≤ now) := by
    intro rt hrt
    by_cases hdue : rt.nextOccursAt ≤ now
    · rw [decide_eq_true hdue, (uuidContains procIds rt.id).mpr
        (hdue_proc rt.id ((mem_dueIds rows0 now rt.id).mpr
          ⟨rt, hrt, rfl, hdue⟩))]
    · rw [decide_eq_false hdue, Bool.eq_false_iff]
      intro hc
      exact hdue (due_of_id_mem_dueIds rows0 now hids rt hrt
        (hinvF.hproc_due rt.id ((uuidContains procIds rt.id).mp hc)))
  refine ⟨?_, ?_, ?_⟩
  · obtain ⟨new, hTx, hPerm⟩ := hinvF.htxns
    refine ⟨new, hTx, ?_⟩
    have hfil : (rows0.filter fun rt => procIds.contains rt.id) =
        dueRows rows0 now := by
      rw [dueRows]
      exact List.filter_congr fun rt hrt => hpred rt hrt
    rw [hfil] at hPerm
    exact hPerm
  · rw [hinvF.hrows]
    refine List.map_congr_left fun rt hrt => ?_
    rw [hpred rt hrt]
    by_cases hdue : rt.nextOccursAt ≤ now
    · rw [if_pos (by rw [decide_eq_true hdue]), if_pos hdue]
    · rw [if_neg (by rw [decide_eq_false hdue]; simp), if_neg hdue]
  · intro s i h
    unfold claimStep
    rw [h]
    rfl

/-- Witness for C3: two instances over the two-row due set of `c3Rows`,
interleaved as claim 0, claim 1 (which skips the rows locked by instance 0),
commit 0, commit 1 — exactly one transaction per due obligation results. -/
theorem C3_concurrent_schedulers_fire_exactly_once_witness :
    (∃ new, c3Final.txns = [] ++ new ∧
      List.Perm (new.map stripTx) ((dueRows c3Rows 2000).map fireStrip)) ∧
    c3Final.rows = c3Rows.map (fun rt =>
      if rt.nextOccursAt ≤ 2000 then advanceRecurring rt else rt) := by
  have h := C3_concurrent_schedulers_fire_exactly_once c3Rows [] 2000 2 0
    [Action.claim 0, Action.claim 1, Action.commit 0, Action.commit 1]
    c3Final (by decide) (by decide) (by decide) (by decide) (by decide)
  exact ⟨h.1, h.2.1⟩

end Firecash
